import Mathlib

/-!
Verification of the weekly staffing scheduler (main.py / merger.py).

Times of day are modelled as seconds since midnight (a `datetime.time` is a
time of day; comparisons between `datetime.combine(today, t)` values coincide
with comparisons of the seconds-since-midnight values). A roster `DataFrame`
is modelled as a list of rows. LP variables are binary; a candidate solver
assignment is a valuation of every variable family, and the constraint system
emitted by `build_model` is embedded as a predicate `Satisfies` on valuations.
-/

namespace Scheduler

/-- A parsed roster row: `Student Name`, `Day of Week`, `Class Start`,
`Class End` (times in seconds since midnight). -/
structure Row where
  name : String
  day : String
  cs : Nat
  ce : Nat
deriving DecidableEq

/-- A generated time block `(day, i, st, et)` as produced by `genblocks`. -/
structure Blk where
  day : String
  idx : Nat
  st : Nat
  en : Nat
deriving DecidableEq

/-- One day of the block-generation loop of `genblocks`:
`while cur < fin: e = (cur + 1h).time(); if e > en_time: break; append; cur += 1h`.
`cur` is a full datetime (seconds since today's midnight, unbounded), while the
stored start/end are times of day, hence the `% 86400`. The first argument is
recursion fuel; one unit is consumed per loop iteration, and `en - cur`
iterations always suffice because `cur` grows by 3600 each round. -/
def genblocksFrom : Nat → Nat → Nat → Nat → List (Nat × Nat × Nat)
  | 0, _, _, _ => []
  | fuel+1, en, cur, i =>
    if cur < en then
      let e := (cur + 3600) % 86400
      if en < e then []
      else (i, cur % 86400, e) :: genblocksFrom fuel en (cur + 3600) (i + 1)
    else []

/-- The `(i, st, et)` triples generated for a single day from window start
`st` to window end `en` (both in seconds since midnight). -/
def genblocksDay (st en : Nat) : List (Nat × Nat × Nat) :=
  genblocksFrom (en - st) en st 0

/-- Default operating-window start, 07:30. -/
def windowStart : Nat := 7 * 3600 + 30 * 60

/-- Default operating-window end, 17:30. -/
def windowEnd : Nat := 17 * 3600 + 30 * 60

/-- `genblocks(days, start, end)`: for each day in order, append that day's
generated `(day, i, st, et)` blocks. The block sequence is identical for
every day; the outer loop resets the index to 0 per day. -/
def genblocks : List String → Nat → Nat → List Blk
  | [], _, _ => []
  | d :: ds, st, en =>
      ((genblocksDay st en).map fun t => ⟨d, t.1, t.2.1, t.2.2⟩) ++ genblocks ds st en

/-- `freeblk(classes, d, s, e)`: `True` iff no class interval on day `d`
half-open-overlaps the block `[s, e)` (overlap test `c1 < b2 and c2 > b1`). -/
def freeblk (classes : List (String × Nat × Nat)) (d : String) (s e : Nat) : Bool :=
  match classes with
  | [] => true
  | (dow, cs, ce) :: rest =>
      if dow = d ∧ cs < e ∧ ce > s then false
      else freeblk rest d s e

/-- Computable code-point-lexicographic strict order on char lists; this is
the order Python uses to compare strings in `sorted`. -/
def charListLt : List Char → List Char → Bool
  | [], [] => false
  | [], _ :: _ => true
  | _ :: _, [] => false
  | a :: as, b :: bs => if a < b then true else if b < a then false else charListLt as bs

/-- Computable total order on strings used for the `sorted(...)` calls. -/
def strLe (a b : String) : Prop := charListLt b.data a.data = false

instance strLeDecidable : DecidableRel strLe := fun a b =>
  inferInstanceAs (Decidable (charListLt b.data a.data = false))

/-- Python `sorted(set(l))`: the distinct elements of `l` in ascending order. -/
def sortedUnique (l : List String) : List String :=
  List.insertionSort strLe l.dedup

/-- `ds = sorted(df['Day of Week'].unique())`. -/
def dsOf (df : List Row) : List String := sortedUnique (df.map Row.day)

/-- `stus = list(stmap.keys())` where `stmap` comes from a pandas `groupby`
on the student name; `groupby` sorts its keys. -/
def stusOf (df : List Row) : List String := sortedUnique (df.map Row.name)

/-- `stmap[s]`: the `(Day of Week, Class Start, Class End)` triples of the
rows of student `s`, in roster order. -/
def stmapOf (df : List Row) (s : String) : List (String × Nat × Nat) :=
  df.filterMap fun r => if r.name = s then some (r.day, r.cs, r.ce) else none

/-- `blks = genblocks(ds)` with the default operating window. -/
def blksOf (df : List Row) : List Blk := genblocks (dsOf df) windowStart windowEnd

/-- The `day_blocks[d]` grouping: the `(i, st, et)` triples of the blocks of
day `d`, in `blks` order. -/
def dayBlocksIn (bl : List Blk) (d : String) : List (Nat × Nat × Nat) :=
  bl.filterMap fun b => if b.day = d then some (b.idx, b.st, b.en) else none

/-- `day_blocks[d]` for the model of roster `df`. -/
def dayBlocksOf (df : List Row) (d : String) : List (Nat × Nat × Nat) :=
  dayBlocksIn (blksOf df) d

/-- `block_indices = [b[0] for b in day_blocks[d]]`. -/
def blockIdxs (df : List Row) (d : String) : List Nat :=
  (dayBlocksOf df d).map fun t => t.1

/-- A valuation of every LP variable family created by `build_model`:
`x[s,d,i]`, `y[s,d]`, `start2/3/4[s,d,i]`, `u[d,i]`. -/
structure Assign where
  xv : String → String → Nat → Nat
  yv : String → String → Nat
  s2v : String → String → Nat → Nat
  s3v : String → String → Nat → Nat
  s4v : String → String → Nat → Nat
  uv : String → Nat → Nat

/-- The keyword parameters of `build_model`. -/
structure Params where
  minh : Nat
  maxh : Nat
  avg_low : Nat
  avg_high : Nat
  maxovl : Nat
  day_cost : Nat
deriving DecidableEq

/-- The default parameters of `build_model` (also the values passed by `main`). -/
def defaultParams : Params := ⟨6, 20, 8, 12, 3, 1⟩

/-- `lpSum(x[(s,d,i)] for s in stus)` for a fixed block. -/
def sumStu (df : List Row) (A : Assign) (d : String) (i : Nat) : Nat :=
  ((stusOf df).map fun s => A.xv s d i).sum

/-- `sum_x_day = lpSum(x[(s,d,i)] for i in block_indices)`. -/
def sumXday (df : List Row) (A : Assign) (s d : String) : Nat :=
  ((blockIdxs df d).map fun i => A.xv s d i).sum

/-- `lpSum(s2_list)`: the sum of the `start2` variables of `(s, d)`; a
`start2[(s,d,i)]` variable exists iff `i+1` is also a block index of `d`. -/
def s2Sum (df : List Row) (A : Assign) (s d : String) : Nat :=
  (((blockIdxs df d).filter fun i => decide ((i+1) ∈ blockIdxs df d)).map fun i =>
    A.s2v s d i).sum

/-- `lpSum(s3_list)`; a `start3[(s,d,i)]` variable exists iff `i+2` is a block index. -/
def s3Sum (df : List Row) (A : Assign) (s d : String) : Nat :=
  (((blockIdxs df d).filter fun i => decide ((i+2) ∈ blockIdxs df d)).map fun i =>
    A.s3v s d i).sum

/-- `lpSum(s4_list)`; a `start4[(s,d,i)]` variable exists iff `i+3` is a block index. -/
def s4Sum (df : List Row) (A : Assign) (s d : String) : Nat :=
  (((blockIdxs df d).filter fun i => decide ((i+3) ∈ blockIdxs df d)).map fun i =>
    A.s4v s d i).sum

/-- `total_hrs = lpSum(x[(s,d,i)] for (d,i,_,_) in blks)` for one student. -/
def totalX (df : List Row) (A : Assign) (s : String) : Nat :=
  ((blksOf df).map fun b => A.xv s b.day b.idx).sum

/-- `total_all = lpSum(x[(s,d,i)] for s in stus for (d,i,_,_) in blks)`. -/
def totalAll (df : List Row) (A : Assign) : Nat :=
  ((stusOf df).map fun s => totalX df A s).sum

/-- `lpSum(u[(d,i)] for (d,i,_,_) in blks)`. -/
def sumU (df : List Row) (A : Assign) : Nat :=
  ((blksOf df).map fun b => A.uv b.day b.idx).sum

/-- `lpSum(y[(s,d)] for s in stus for d in ds)`. -/
def sumY (df : List Row) (A : Assign) : Nat :=
  ((stusOf df).map fun s => ((dsOf df).map fun d => A.yv s d).sum).sum

/-- The hard-coded `big_weight = 1000` coefficient of the uncovered-block term. -/
def bigWeight : Nat := 1000

/-- The minimized objective
`big_weight * lpSum(u) + lpSum(x) + day_cost * lpSum(y)`. -/
def objective (df : List Row) (P : Params) (A : Assign) : Nat :=
  bigWeight * sumU df A + totalAll df A + P.day_cost * sumY df A

/-- Every created variable is declared `cat=LpBinary`: its value is 0 or 1. -/
def BinaryVars (df : List Row) (A : Assign) : Prop :=
  (∀ s ∈ stusOf df, ∀ d ∈ dsOf df,
    A.yv s d ≤ 1 ∧
    (∀ i ∈ blockIdxs df d, A.xv s d i ≤ 1) ∧
    (∀ i ∈ blockIdxs df d,
      ((i+1) ∈ blockIdxs df d → A.s2v s d i ≤ 1) ∧
      ((i+2) ∈ blockIdxs df d → A.s3v s d i ≤ 1) ∧
      ((i+3) ∈ blockIdxs df d → A.s4v s d i ≤ 1))) ∧
  (∀ b ∈ blksOf df, A.uv b.day b.idx ≤ 1)

/-- Constraint 1, soft coverage: for every block,
`lpSum(x[(s,d,i)] for s in stus) + u[(d,i)] >= 1`. -/
def Cover (df : List Row) (A : Assign) : Prop :=
  ∀ b ∈ blksOf df, 1 ≤ sumStu df A b.day b.idx + A.uv b.day b.idx

/-- Constraint 2, overlap cap: for every block,
`lpSum(x[(s,d,i)] for s in stus) <= maxovl`. -/
def OverlapCap (df : List Row) (P : Params) (A : Assign) : Prop :=
  ∀ b ∈ blksOf df, sumStu df A b.day b.idx ≤ P.maxovl

/-- Constraint 3, weekly bounds per student: `minh <= total_hrs <= maxh`. -/
def WeeklyBounds (df : List Row) (P : Params) (A : Assign) : Prop :=
  ∀ s ∈ stusOf df, P.minh ≤ totalX df A s ∧ totalX df A s ≤ P.maxh

/-- Constraint 4, overall average band:
`avg_low * N <= total_all <= avg_high * N` with `N = len(stus)`. -/
def AvgBounds (df : List Row) (P : Params) (A : Assign) : Prop :=
  P.avg_low * (stusOf df).length ≤ totalAll df A ∧
  totalAll df A ≤ P.avg_high * (stusOf df).length

/-- Constraint 5, busy masking: `x[(s,d,i)] == 0` whenever
`freeblk(stmap[s], d, st, et)` is false for the block `(i, st, et)`. -/
def BusyMask (df : List Row) (A : Assign) : Prop :=
  ∀ s ∈ stusOf df, ∀ d ∈ dsOf df, ∀ t ∈ dayBlocksOf df d,
    freeblk (stmapOf df s) d t.2.1 t.2.2 = false → A.xv s d t.1 = 0

/-- Constraint 6, shift shape per `(s, d)`: the shift-selector equality
`lpSum(s2+s3+s4) == y`, the accounting equality
`sum_x_day == 2*s2 + 3*s3 + 4*s4`, and the per-offset implication links
`x[i+o] >= startK[i]` for each existing start variable. -/
def ShiftConstraints (df : List Row) (A : Assign) : Prop :=
  ∀ s ∈ stusOf df, ∀ d ∈ dsOf df,
    s2Sum df A s d + s3Sum df A s d + s4Sum df A s d = A.yv s d ∧
    sumXday df A s d =
      2 * s2Sum df A s d + 3 * s3Sum df A s d + 4 * s4Sum df A s d ∧
    (∀ i ∈ blockIdxs df d,
      ((i+1) ∈ blockIdxs df d →
        A.s2v s d i ≤ A.xv s d i ∧ A.s2v s d i ≤ A.xv s d (i+1)) ∧
      ((i+2) ∈ blockIdxs df d →
        A.s3v s d i ≤ A.xv s d i ∧ A.s3v s d i ≤ A.xv s d (i+1) ∧
        A.s3v s d i ≤ A.xv s d (i+2)) ∧
      ((i+3) ∈ blockIdxs df d →
        A.s4v s d i ≤ A.xv s d i ∧ A.s4v s d i ≤ A.xv s d (i+1) ∧
        A.s4v s d i ≤ A.xv s d (i+2) ∧ A.s4v s d i ≤ A.xv s d (i+3)))

/-- A valuation satisfies the whole constraint system emitted by
`build_model(df, minh, maxh, avg_low, avg_high, maxovl, day_cost)`. -/
def Satisfies (df : List Row) (P : Params) (A : Assign) : Prop :=
  BinaryVars df A ∧ Cover df A ∧ OverlapCap df P A ∧ WeeklyBounds df P A ∧
  AvgBounds df P A ∧ BusyMask df A ∧ ShiftConstraints df A

instance binaryVarsDecidable (df : List Row) (A : Assign) :
    Decidable (BinaryVars df A) := by
  unfold BinaryVars; infer_instance

instance coverDecidable (df : List Row) (A : Assign) : Decidable (Cover df A) := by
  unfold Cover; infer_instance

instance overlapCapDecidable (df : List Row) (P : Params) (A : Assign) :
    Decidable (OverlapCap df P A) := by
  unfold OverlapCap; infer_instance

instance weeklyBoundsDecidable (df : List Row) (P : Params) (A : Assign) :
    Decidable (WeeklyBounds df P A) := by
  unfold WeeklyBounds; infer_instance

instance avgBoundsDecidable (df : List Row) (P : Params) (A : Assign) :
    Decidable (AvgBounds df P A) := by
  unfold AvgBounds; infer_instance

instance busyMaskDecidable (df : List Row) (A : Assign) : Decidable (BusyMask df A) := by
  unfold BusyMask; infer_instance

instance shiftConstraintsDecidable (df : List Row) (A : Assign) :
    Decidable (ShiftConstraints df A) := by
  unfold ShiftConstraints; infer_instance

instance satisfiesDecidable (df : List Row) (P : Params) (A : Assign) :
    Decidable (Satisfies df P A) := by
  unfold Satisfies; infer_instance

/-- The valuation equal to `A` except that `u[(d,i)]` is cleared to 0. -/
def clearU (A : Assign) (d : String) (i : Nat) : Assign :=
  ⟨A.xv, A.yv, A.s2v, A.s3v, A.s4v,
    fun d1 i1 => if d1 = d ∧ i1 = i then 0 else A.uv d1 i1⟩

/-- The all-zero valuation. -/
def zeroAssign : Assign :=
  ⟨fun _ _ _ => 0, fun _ _ => 0, fun _ _ _ => 0, fun _ _ _ => 0, fun _ _ _ => 0,
    fun _ _ => 0⟩

/-- The PuLP status codes; `LpStatus[...]` maps them to these five names. -/
inductive SolverStatus
  | notSolved
  | optimal
  | infeasible
  | unbounded
  | undefined
deriving DecidableEq

/-- The `LpStatus` name of a status code. -/
def statusName : SolverStatus → String
  | .notSolved => "Not Solved"
  | .optimal => "Optimal"
  | .infeasible => "Infeasible"
  | .unbounded => "Unbounded"
  | .undefined => "Undefined"

/-- A row of the assigned-blocks table before the `TotalHrs` column is added. -/
structure SolRow where
  student : String
  day : String
  blockIdx : Nat
  startT : Nat
  endT : Nat
deriving DecidableEq

/-- A row of the assigned-blocks table with its `TotalHrs` column. -/
structure SolRowT where
  student : String
  day : String
  blockIdx : Nat
  startT : Nat
  endT : Nat
  totalHrs : Nat
deriving DecidableEq

/-- A row of the uncovered-blocks table. -/
structure URow where
  day : String
  blockIdx : Nat
  startT : Nat
  endT : Nat
  status : String
deriving DecidableEq

/-- The assigned-block rows in construction order:
`for s in stus: for (d,i,st,et) in blks: if x[(s,d,i)].varValue == 1: append`. -/
def rawRows (xval : String → String → Nat → Nat) (blks : List Blk)
    (stus : List String) : List SolRow :=
  stus.flatMap fun s => blks.filterMap fun b =>
    if xval s b.day b.idx = 1 then some ⟨s, b.day, b.idx, b.st, b.en⟩ else none

/-- Adding the `TotalHrs` column: each student's row count. -/
def withTotals (rows : List SolRow) : List SolRowT :=
  rows.map fun r =>
    ⟨r.student, r.day, r.blockIdx, r.startT, r.endT,
      (rows.filter fun r1 => r1.student = r.student).length⟩

/-- The `daymap` dictionary; unknown labels get no number (pandas `NaN`). -/
def daymap (d : String) : Option Nat :=
  if d = "Monday" then some 1
  else if d = "Tuesday" then some 2
  else if d = "Wednesday" then some 3
  else if d = "Thursday" then some 4
  else if d = "Friday" then some 5
  else none

/-- The numeric sort key of a day label; a missing `daymap` entry is `NaN`,
which pandas sorts after every number, modelled as 6. -/
def daynum (d : String) : Nat := (daymap d).getD 6

/-- The `sort_values(["daynum", "BlockIdx", "Student"])` row order:
lexicographic on day number, then block index, then student name. -/
def rowLe (a b : SolRowT) : Prop :=
  daynum a.day < daynum b.day ∨
    (daynum a.day = daynum b.day ∧
      (a.blockIdx < b.blockIdx ∨
        (a.blockIdx = b.blockIdx ∧ strLe a.student b.student)))

instance rowLeDecidable : DecidableRel rowLe := fun a b =>
  inferInstanceAs (Decidable (_ ∨ (_ ∧ (_ ∨ (_ ∧ _)))))

/-- Sorting the assigned table. Row keys are distinct whenever the variable
keys are, so any comparison sort yields this unique sorted arrangement. -/
def sortRows (rows : List SolRowT) : List SolRowT :=
  List.insertionSort rowLe rows

/-- The final assigned-blocks table: rows for `x = 1`, `TotalHrs` added,
sorted by `(daynum, BlockIdx, Student)`. -/
def solTable (xval : String → String → Nat → Nat) (blks : List Blk)
    (stus : List String) : List SolRowT :=
  sortRows (withTotals (rawRows xval blks stus))

/-- The uncovered-blocks table: one row per block with `u = 1`. -/
def uncoveredRows (uval : String → Nat → Nat) (blks : List Blk) : List URow :=
  blks.filterMap fun b =>
    if uval b.day b.idx = 1 then some ⟨b.day, b.idx, b.st, b.en, "Uncovered"⟩ else none

/-- `solve_and_extract` after the solver call: if the status name is not
`Optimal` or `Feasible`, return `None` before touching any variable value;
otherwise decode both tables from the solved values. -/
def solve_and_extract (st : SolverStatus) (xval : String → String → Nat → Nat)
    (uval : String → Nat → Nat) (blks : List Blk) (stus : List String) :
    Option (List SolRowT × List URow) :=
  if statusName st ∈ (["Optimal", "Feasible"] : List String) then
    some (solTable xval blks stus, uncoveredRows uval blks)
  else none

/-- A raw roster row before time parsing. -/
structure RawRow where
  name : String
  day : String
  csStr : String
  ceStr : String
deriving DecidableEq

/-- The numeric value of a decimal digit character. -/
def digitVal (c : Char) : Option Nat :=
  if c.isDigit then some (c.toNat - 48) else none

/-- Models `strptime` with format `%H:%M:%S` as used by
`pd.to_datetime(..., format="%H:%M:%S")` in `loaddata`: two-digit fields
separated by colons, hour below 24, minute and second below 60; the result
is seconds since midnight. Any other shape raises, i.e. yields `none`. -/
def parseTimeHMS (t : String) : Option Nat :=
  match t.data with
  | [h1, h2, c1, m1, m2, c2, p1, p2] =>
      if c1 = ':' ∧ c2 = ':' then
        match digitVal h1, digitVal h2, digitVal m1, digitVal m2,
            digitVal p1, digitVal p2 with
        | some a, some b, some c, some d, some e, some f =>
            if 10 * a + b < 24 ∧ 10 * c + d < 60 ∧ 10 * e + f < 60 then
              some (3600 * (10 * a + b) + 60 * (10 * c + d) + (10 * e + f))
            else none
        | _, _, _, _, _, _ => none
      else none
  | _ => none

/-- `loaddata`: convert the `Class Start` / `Class End` columns; the first
malformed time raises before any model is built. -/
def loaddata : List RawRow → Except String (List Row)
  | [] => .ok []
  | r :: rest =>
      match parseTimeHMS r.csStr, parseTimeHMS r.ceStr with
      | some a, some b =>
          match loaddata rest with
          | .ok tl => .ok (⟨r.name, r.day, a, b⟩ :: tl)
          | .error e => .error e
      | _, _ => .error "time data does not match the expected format"

/-- The five weekday labels of the input schema. -/
def weekdays : List String := ["Monday", "Tuesday", "Wednesday", "Thursday", "Friday"]

/-- Concrete two-day roster used to instantiate the general theorems:
one student `a`, busy 11:30-12:30 on Monday and on Tuesday (block 4 of each
day is busy, block 5 starts exactly at the busy end and is free). -/
def Wdf : List Row := [⟨"a", "Monday", 41400, 45000⟩, ⟨"a", "Tuesday", 41400, 45000⟩]

/-- Relaxed parameters (`minh = 0`, `avg_low = 0`) used for witness valuations. -/
def P0 : Params := ⟨0, 20, 0, 12, 3, 1⟩

/-- A valuation of the `Wdf` model: student `a` works blocks 0-1 on Monday
via a length-2 shift, and every uncovered flag is raised, including on the
covered blocks. -/
def Wboth : Assign :=
  ⟨fun s d i => if s = "a" ∧ d = "Monday" ∧ i < 2 then 1 else 0,
    fun s d => if s = "a" ∧ d = "Monday" then 1 else 0,
    fun s d i => if s = "a" ∧ d = "Monday" ∧ i = 0 then 1 else 0,
    fun _ _ _ => 0,
    fun _ _ _ => 0,
    fun _ _ => 1⟩

/-- A valuation of the `Wdf` model satisfying the default parameters:
length-4 shifts at block 0 on both days, flags raised exactly on the twelve
non-covered blocks. -/
def A6 : Assign :=
  ⟨fun s _ i => if s = "a" ∧ i < 4 then 1 else 0,
    fun s _ => if s = "a" then 1 else 0,
    fun _ _ _ => 0,
    fun _ _ _ => 0,
    fun s _ i => if s = "a" ∧ i = 0 then 1 else 0,
    fun _ i => if 4 ≤ i then 1 else 0⟩

/-- Like `A6` but with one extra raised flag on the covered Monday block 0. -/
def B6 : Assign :=
  ⟨A6.xv, A6.yv, A6.s2v, A6.s3v, A6.s4v,
    fun d i => if 4 ≤ i ∨ (d = "Monday" ∧ i = 0) then 1 else 0⟩

/-! Helper lemmas about the string order and `sortedUnique`. -/

theorem charListLt_asymm : ∀ l1 l2, charListLt l1 l2 = true → charListLt l2 l1 = false := by
  intro l1
  induction l1 with
  | nil => intro l2 h; cases l2 <;> simp [charListLt] at *
  | cons a as ih =>
      intro l2 h
      cases l2 with
      | nil => simp [charListLt] at h
      | cons b bs =>
          simp only [charListLt] at h ⊢
          by_cases hab : a < b
          · have hba : ¬ b < a := lt_asymm hab
            simp [hab, hba]
          · by_cases hba : b < a
            · simp [hab, hba] at h
            · rw [if_neg hab, if_neg hba] at h
              rw [if_neg hba, if_neg hab]
              exact ih bs h

theorem charListLt_conn :
    ∀ l1 l2, charListLt l1 l2 = false → charListLt l2 l1 = false → l1 = l2 := by
  intro l1
  induction l1 with
  | nil => intro l2 h1 h2; cases l2 <;> simp [charListLt] at *
  | cons a as ih =>
      intro l2 h1 h2
      cases l2 with
      | nil => simp [charListLt] at h2
      | cons b bs =>
          simp only [charListLt] at h1 h2
          by_cases hab : a < b
          · simp [hab] at h1
          · by_cases hba : b < a
            · simp [hab, hba] at h2
            · have hab1 : a = b := le_antisymm (not_lt.mp hba) (not_lt.mp hab)
              rw [if_neg hab, if_neg hba] at h1
              rw [if_neg hba, if_neg hab] at h2
              rw [hab1, ih bs h1 h2]

theorem charListLt_trans : ∀ l1 l2 l3, charListLt l1 l2 = true →
    charListLt l2 l3 = true → charListLt l1 l3 = true := by
  intro l1
  induction l1 with
  | nil =>
      intro l2 l3 h1 h2
      cases l2 with
      | nil => simp [charListLt] at h1
      | cons b bs =>
          cases l3 with
          | nil => simp [charListLt] at h2
          | cons c cs => simp [charListLt]
  | cons a as ih =>
      intro l2 l3 h1 h2
      cases l2 with
      | nil => simp [charListLt] at h1
      | cons b bs =>
          cases l3 with
          | nil => simp [charListLt] at h2
          | cons c cs =>
              simp only [charListLt] at h1 h2 ⊢
              by_cases hab : a < b <;> by_cases hbc : b < c
              · have hac : a < c := lt_trans hab hbc
                simp [hac]
              · have hbc1 : b = c := by
                  by_cases h : c < b
                  · simp [hbc, h] at h2
                  · exact le_antisymm (not_lt.mp h) (not_lt.mp hbc)
                subst hbc1
                simp [hab]
              · have hab1 : a = b := by
                  by_cases h : b < a
                  · simp [hab, h] at h1
                  · exact le_antisymm (not_lt.mp h) (not_lt.mp hab)
                subst hab1
                simp [hbc]
              · have hab1 : a = b := by
                  by_cases h : b < a
                  · simp [hab, h] at h1
                  · exact le_antisymm (not_lt.mp h) (not_lt.mp hab)
                have hbc1 : b = c := by
                  by_cases h : c < b
                  · simp [hbc, h] at h2
                  · exact le_antisymm (not_lt.mp h) (not_lt.mp hbc)
                subst hab1
                subst hbc1
                rw [if_neg (lt_irrefl a), if_neg (lt_irrefl a)] at h1
                rw [if_neg (lt_irrefl a), if_neg (lt_irrefl a)] at h2
                rw [if_neg (lt_irrefl a), if_neg (lt_irrefl a)]
                exact ih _ _ h1 h2

instance strLeTotal : IsTotal String strLe := by
  constructor
  intro a b
  unfold strLe
  by_cases h : charListLt b.data a.data = true
  · right
    exact charListLt_asymm _ _ h
  · left
    simpa using h

instance strLeIsTrans : IsTrans String strLe := by
  constructor
  intro a b c h1 h2
  unfold strLe at *
  by_cases h : charListLt c.data a.data = true
  · exfalso
    by_cases hab : charListLt a.data b.data = true
    · have hcb := charListLt_trans _ _ _ h hab
      rw [hcb] at h2
      cases h2
    · simp only [Bool.not_eq_true] at hab
      have he : a.data = b.data := charListLt_conn _ _ hab h1
      rw [he] at h
      rw [h] at h2
      cases h2
  · simpa using h

theorem sortedUnique_sorted (l : List String) : List.Sorted strLe (sortedUnique l) :=
  List.sorted_insertionSort _ _

theorem sortedUnique_nodup (l : List String) : (sortedUnique l).Nodup :=
  (List.perm_insertionSort strLe l.dedup).symm.nodup l.nodup_dedup

theorem sortedUnique_mem (l : List String) (d : String) :
    d ∈ sortedUnique l ↔ d ∈ l := by
  unfold sortedUnique
  rw [(List.perm_insertionSort strLe l.dedup).mem_iff, List.mem_dedup]

theorem dsOf_nodup (df : List Row) : (dsOf df).Nodup :=
  sortedUnique_nodup _

theorem dsOf_mem (df : List Row) (d : String) :
    d ∈ dsOf df ↔ ∃ r ∈ df, r.day = d := by
  unfold dsOf
  rw [sortedUnique_mem, List.mem_map]

/-! Helper lemmas about list sums. -/

theorem list_sum_map_range (f : Nat → Nat) (n : Nat) :
    ((List.range n).map f).sum = ∑ i in Finset.range n, f i := by
  induction n with
  | zero => simp
  | succ n ih =>
      rw [List.range_succ, Finset.sum_range_succ, List.map_append, List.sum_append, ih]
      simp

theorem list_sum_le_const {α : Type} (l : List α) (f : α → Nat) (c : Nat)
    (h : ∀ a ∈ l, f a ≤ c) : (l.map f).sum ≤ c * l.length := by
  induction l with
  | nil => simp
  | cons a t ih =>
      simp only [List.map_cons, List.sum_cons, List.length_cons]
      have h1 := h a (List.mem_cons_self a t)
      have h2 := ih fun x hx => h x (List.mem_cons_of_mem a hx)
      calc f a + (t.map f).sum ≤ c + c * t.length := Nat.add_le_add h1 h2
        _ = c * (t.length + 1) := by ring

theorem list_sum_lt_list_sum {α : Type} (l : List α) (f g : α → Nat)
    (hle : ∀ a ∈ l, f a ≤ g a) (a0 : α) (h0 : a0 ∈ l) (hlt : f a0 < g a0) :
    (l.map f).sum < (l.map g).sum := by
  induction l with
  | nil => cases h0
  | cons a t ih =>
      simp only [List.map_cons, List.sum_cons]
      rcases List.mem_cons.mp h0 with he | ht
      · subst he
        have h2 : (t.map f).sum ≤ (t.map g).sum :=
          List.sum_le_sum fun x hx => hle x (List.mem_cons_of_mem a0 hx)
        omega
      · have h1 := hle a (List.mem_cons_self a t)
        have h2 := ih (fun x hx => hle x (List.mem_cons_of_mem a hx)) ht
        omega

theorem list_sum_comm {α β : Type} (l1 : List α) (l2 : List β) (f : α → β → Nat) :
    (l1.map fun a => (l2.map (f a)).sum).sum =
      (l2.map fun b => (l1.map fun a => f a b).sum).sum := by
  induction l1 with
  | nil => simp
  | cons a t ih =>
      simp only [List.map_cons, List.sum_cons, ih]
      clear ih
      induction l2 with
      | nil => simp
      | cons b t2 ih2 =>
          simp only [List.map_cons, List.sum_cons]
          omega

theorem list_sum_mul_left {α : Type} (c : Nat) (l : List α) (f : α → Nat) :
    c * (l.map f).sum = (l.map fun a => c * f a).sum := by
  induction l with
  | nil => simp
  | cons a t ih =>
      simp only [List.map_cons, List.sum_cons, Nat.mul_add, ih]

/-! Characterization of the block generator. The bound `en ≤ 82800`
(23:00) guarantees that `cur + 1h` never wraps past midnight while the loop
is running, which holds for the default window end 17:30. -/

theorem genblocksFrom_eq (fuel : Nat) : ∀ en cur i, en ≤ 82800 → en - cur ≤ fuel →
    genblocksFrom fuel en cur i =
      (List.range ((en - cur) / 3600)).map fun j =>
        (i + j, cur + 3600 * j, cur + 3600 * j + 3600) := by
  induction fuel with
  | zero =>
      intro en cur i hen hf
      have hq : (en - cur) / 3600 = 0 := by omega
      simp [genblocksFrom, hq]
  | succ fuel ih =>
      intro en cur i hen hf
      by_cases hc : cur < en
      · have hmod : (cur + 3600) % 86400 = cur + 3600 := Nat.mod_eq_of_lt (by omega)
        have hmod2 : cur % 86400 = cur := Nat.mod_eq_of_lt (by omega)
        by_cases he : en < cur + 3600
        · have hq : (en - cur) / 3600 = 0 := by omega
          simp [genblocksFrom, if_pos hc, hmod, if_pos he, hq]
        · have hrec := ih en (cur + 3600) (i + 1) hen (by omega)
          have hq : (en - cur) / 3600 = (en - (cur + 3600)) / 3600 + 1 := by
            have h1 : en - cur = (en - (cur + 3600)) + 3600 := by omega
            rw [h1, Nat.add_div_right _ (by norm_num)]
          simp only [genblocksFrom, if_pos hc, hmod, hmod2, if_neg he]
          rw [hrec, hq, List.range_succ_eq_map, List.map_cons, List.map_map]
          refine congrArg₂ List.cons ?h1 ?h2
          · norm_num
          · exact List.map_congr_left fun j hj => by
              simp only [Function.comp_apply, Prod.mk.injEq, Nat.mul_succ]
              omega
      · have hq : (en - cur) / 3600 = 0 := by omega
        simp [genblocksFrom, if_neg hc, hq]

theorem genblocksDay_eq (st en : Nat) (hen : en ≤ 82800) :
    genblocksDay st en =
      (List.range ((en - st) / 3600)).map fun j =>
        (j, st + 3600 * j, st + 3600 * j + 3600) := by
  unfold genblocksDay
  rw [genblocksFrom_eq (en - st) en st 0 hen (le_refl _)]
  exact List.map_congr_left fun j hj => by simp

theorem dayBlocksIn_not_mem (bl : List String) (st en : Nat) (d : String) (hd : d ∉ bl) :
    dayBlocksIn (genblocks bl st en) d = [] := by
  induction bl with
  | nil => rfl
  | cons a l ih =>
      have hda : ¬ (a = d) := fun h => hd (h ▸ List.mem_cons_self a l)
      have hdl : d ∉ l := fun h => hd (List.mem_cons_of_mem a h)
      simp only [genblocks, dayBlocksIn, List.filterMap_append] at *
      rw [List.filterMap_map, ih hdl, List.append_nil]
      have hfun : (fun t : Nat × Nat × Nat =>
          if ((⟨a, t.1, t.2.1, t.2.2⟩ : Blk)).day = d then
            some ((⟨a, t.1, t.2.1, t.2.2⟩ : Blk).idx, (⟨a, t.1, t.2.1, t.2.2⟩ : Blk).st,
              (⟨a, t.1, t.2.1, t.2.2⟩ : Blk).en)
          else none) = fun _ => (none : Option (Nat × Nat × Nat)) := by
        funext t
        simp [hda]
      show ((genblocksDay st en).filterMap _) = []
      rw [show ((fun b : Blk => if b.day = d then some (b.idx, b.st, b.en) else none) ∘
          (fun t : Nat × Nat × Nat => (⟨a, t.1, t.2.1, t.2.2⟩ : Blk))) =
          fun _ => (none : Option (Nat × Nat × Nat)) from hfun]
      simp

theorem dayBlocksIn_genblocks (bl : List String) (st en : Nat) (hnd : bl.Nodup) (d : String)
    (hd : d ∈ bl) : dayBlocksIn (genblocks bl st en) d = genblocksDay st en := by
  induction bl with
  | nil => cases hd
  | cons a l ih =>
      simp only [genblocks, dayBlocksIn, List.filterMap_append] at *
      by_cases hda : a = d
      · subst hda
        have hal : a ∉ l := (List.nodup_cons.mp hnd).1
        have h2 : dayBlocksIn (genblocks l st en) a = [] := dayBlocksIn_not_mem l st en a hal
        unfold dayBlocksIn at h2
        rw [h2, List.append_nil, List.filterMap_map]
        have hfun : ((fun b : Blk => if b.day = a then some (b.idx, b.st, b.en) else none) ∘
            (fun t : Nat × Nat × Nat => (⟨a, t.1, t.2.1, t.2.2⟩ : Blk))) =
            fun t : Nat × Nat × Nat => some t := by
          funext t
          simp
        rw [hfun]
        exact List.filterMap_some _
      · have hdl : d ∈ l := by
          rcases List.mem_cons.mp hd with h | h
          · exact absurd h.symm hda
          · exact h
        rw [List.filterMap_map]
        have hfun : ((fun b : Blk => if b.day = d then some (b.idx, b.st, b.en) else none) ∘
            (fun t : Nat × Nat × Nat => (⟨a, t.1, t.2.1, t.2.2⟩ : Blk))) =
            fun _ => (none : Option (Nat × Nat × Nat)) := by
          funext t
          simp [hda]
        rw [hfun]
        rw [List.filterMap_eq_nil_iff.mpr fun t ht => rfl, List.nil_append]
        exact ih (List.nodup_cons.mp hnd).2 hdl

theorem genblocks_day_mem (bl : List String) (st en : Nat) (b : Blk)
    (hb : b ∈ genblocks bl st en) : b.day ∈ bl := by
  induction bl with
  | nil => cases hb
  | cons a l ih =>
      simp only [genblocks, List.mem_append] at hb
      rcases hb with h | h
      · rcases List.mem_map.mp h with ⟨t, ht, he⟩
        rw [← he]
        exact List.mem_cons_self a l
      · exact List.mem_cons_of_mem a (ih h)

theorem dayBlocksOf_eq (df : List Row) (d : String) (hd : d ∈ dsOf df) :
    dayBlocksOf df d = genblocksDay windowStart windowEnd :=
  dayBlocksIn_genblocks (dsOf df) windowStart windowEnd (dsOf_nodup df) d hd

theorem blockIdxs_eq (df : List Row) (d : String) (hd : d ∈ dsOf df) :
    blockIdxs df d = List.range 10 := by
  unfold blockIdxs
  rw [dayBlocksOf_eq df d hd]
  decide

/-- C4: for every set of active days (and any non-wrapping operating window,
in particular the default one), the per-day block sequence is exactly
`(j, start + j·1h, start + (j+1)·1h)` for `j` below `(end - start) / 1h`:
indices start at 0 and increment by 1, blocks have fixed duration one hour,
consecutive blocks share an endpoint (no overlap, no gap), every block ends
by the window end, and a trailing interval shorter than one hour is dropped
rather than shortened. -/
theorem genblocks_structure (st en : Nat) (hen : en ≤ 82800) (days : List String)
    (hnd : days.Nodup) (d : String) (hd : d ∈ days) :
    dayBlocksIn (genblocks days st en) d =
      (List.range ((en - st) / 3600)).map
        (fun j => (j, st + 3600 * j, st + 3600 * j + 3600)) ∧
    (∀ t ∈ dayBlocksIn (genblocks days st en) d, t.2.2 ≤ en ∧ t.2.2 = t.2.1 + 3600) := by
  have h1 := dayBlocksIn_genblocks days st en hnd d hd
  have h2 := genblocksDay_eq st en hen
  constructor
  · rw [h1, h2]
  · intro t ht
    rw [h1, h2] at ht
    rcases List.mem_map.mp ht with ⟨j, hj, he⟩
    rw [List.mem_range] at hj
    subst he
    refine ⟨?hle, rfl⟩
    show st + 3600 * j + 3600 ≤ en
    omega

/-- C4 witness: a 90-minute window 08:00-09:30 over the single active day
Monday yields exactly one block 08:00-09:00; the trailing 30 minutes are
dropped. -/
theorem genblocks_structure_witness :
    dayBlocksIn (genblocks ["Monday"] 28800 34200) "Monday" =
      (List.range ((34200 - 28800) / 3600)).map
        (fun j => (j, 28800 + 3600 * j, 28800 + 3600 * j + 3600)) ∧
    (∀ t ∈ dayBlocksIn (genblocks ["Monday"] 28800 34200) "Monday",
      t.2.2 ≤ 34200 ∧ t.2.2 = t.2.1 + 3600) :=
  genblocks_structure 28800 34200 (by norm_num) ["Monday"] (by decide) "Monday"
    (by decide)

/-- C10: the active days of the model are exactly the sorted distinct day
labels of the roster rows; a day with no recorded busy interval is absent
from `ds`, receives no blocks (hence no coverage constraint and no variable
keyed by it), and is never scheduled. -/
theorem active_days_spec (df : List Row) :
    List.Sorted strLe (dsOf df) ∧ (dsOf df).Nodup ∧
    (∀ d, d ∈ dsOf df ↔ ∃ r ∈ df, r.day = d) ∧
    (∀ d, d ∉ dsOf df → ∀ b ∈ blksOf df, b.day ≠ d) := by
  refine ⟨sortedUnique_sorted _, dsOf_nodup df, fun d => dsOf_mem df d, ?c⟩
  intro d hd b hb he
  exact hd (he ▸ genblocks_day_mem (dsOf df) windowStart windowEnd b hb)

/-- C10 witness: Friday carries no busy interval in `Wdf`, so no generated
block lives on Friday. -/
theorem active_days_spec_witness : ∀ b ∈ blksOf Wdf, b.day ≠ "Friday" :=
  (active_days_spec Wdf).2.2.2 "Friday" (by decide)

theorem freeblk_false_iff (classes : List (String × Nat × Nat)) (d : String) (s e : Nat) :
    freeblk classes d s e = false ↔
      ∃ c ∈ classes, c.1 = d ∧ c.2.1 < e ∧ c.2.2 > s := by
  induction classes with
  | nil => simp [freeblk]
  | cons c rest ih =>
      obtain ⟨dow, cs, ce⟩ := c
      simp only [freeblk]
      by_cases h : dow = d ∧ cs < e ∧ ce > s
      · rw [if_pos h]
        constructor
        · intro _
          exact ⟨(dow, cs, ce), List.mem_cons_self _ _, h⟩
        · intro _
          rfl
      · rw [if_neg h, ih]
        constructor
        · rintro ⟨c1, hc, hp⟩
          exact ⟨c1, List.mem_cons_of_mem _ hc, hp⟩
        · rintro ⟨c1, hc, hp⟩
          rcases List.mem_cons.mp hc with he | hm
          · subst he
            exact absurd hp h
          · exact ⟨c1, hm, hp⟩

/-- C5: `freeblk` classifies a block `[s, e)` on day `d` as busy (returns
`False`) iff some interval of that day satisfies `busyStart < e` and
`busyEnd > s`; in particular an interval ending exactly at the block start,
or starting exactly at the block end, leaves the block free. -/
theorem freeblk_busy_iff_overlap :
    (∀ (classes : List (String × Nat × Nat)) (d : String) (s e : Nat),
      freeblk classes d s e = false ↔
        ∃ c ∈ classes, c.1 = d ∧ c.2.1 < e ∧ c.2.2 > s) ∧
    (∀ (d : String) (cs s e : Nat), freeblk [(d, cs, s)] d s e = true) ∧
    (∀ (d : String) (ce s e : Nat), freeblk [(d, e, ce)] d s e = true) := by
  refine ⟨freeblk_false_iff, ?h2, ?h3⟩
  · intro d cs s e
    simp [freeblk]
  · intro d ce s e
    simp [freeblk]

/-- C3: in every assignment satisfying the constraints of `build_model`, a
block of a person's day that half-open-overlaps one of that person's busy
intervals is never assigned to that person: the emitted masking constraint
forces `x[s,d,i] = 0`. -/
theorem busy_never_assigned (df : List Row) (P : Params) (A : Assign)
    (hA : Satisfies df P A) (s : String) (hs : s ∈ stusOf df) (d : String)
    (hd : d ∈ dsOf df) (t : Nat × Nat × Nat) (ht : t ∈ dayBlocksOf df d)
    (hovl : ∃ c ∈ stmapOf df s, c.1 = d ∧ c.2.1 < t.2.2 ∧ c.2.2 > t.2.1) :
    A.xv s d t.1 = 0 := by
  have hbusy : freeblk (stmapOf df s) d t.2.1 t.2.2 = false :=
    (freeblk_false_iff _ _ _ _).mpr hovl
  exact hA.2.2.2.2.2.1 s hs d hd t ht hbusy

/-- C3 witness: in the satisfying valuation `Wboth` of the `Wdf` model,
Monday block 4 (11:30-12:30) overlaps the busy interval 11:30-12:30 of
student `a` and is unassigned. -/
theorem busy_never_assigned_witness : Wboth.xv "a" "Monday" 4 = 0 :=
  busy_never_assigned Wdf P0 Wboth (by decide) "a" (by decide) "Monday" (by decide)
    (4, 41400, 45000) (by decide) ⟨("Monday", 41400, 45000), by decide⟩

/-! Shift-shape machinery for C1. -/

theorem sum_indicator_subset (n : Nat) (x : Nat → Nat)
    (hx : ∀ i ∈ Finset.range n, x i ≤ 1) (S : Finset Nat) (hS : S ⊆ Finset.range n)
    (h1 : ∀ i ∈ S, x i = 1) (hsum : ∑ i in Finset.range n, x i = S.card) :
    ∀ i ∈ Finset.range n, (x i = 1 ↔ i ∈ S) := by
  have hsplit : ∑ i in Finset.range n \ S, x i + ∑ i in S, x i =
      ∑ i in Finset.range n, x i := Finset.sum_sdiff hS
  have hS1 : ∑ i in S, x i = S.card := by
    rw [Finset.sum_congr rfl h1]
    simp
  have hzero : ∑ i in Finset.range n \ S, x i = 0 := by omega
  intro i hi
  constructor
  · intro hxi
    by_contra hmem
    have h0 : x i = 0 :=
      Finset.sum_eq_zero_iff.mp hzero i (Finset.mem_sdiff.mpr ⟨hi, hmem⟩)
    omega
  · exact h1 i

theorem run_shape_core (n k a : Nat) (x : Nat → Nat)
    (hx : ∀ i ∈ Finset.range n, x i ≤ 1) (hk : a + k ≤ n)
    (hone : ∀ i, a ≤ i → i < a + k → x i = 1)
    (hsum : ∑ i in Finset.range n, x i = k) :
    ∀ i ∈ Finset.range n, (x i = 1 ↔ (a ≤ i ∧ i < a + k)) := by
  have hsub : Finset.Ico a (a + k) ⊆ Finset.range n := by
    intro i hi
    rw [Finset.mem_Ico] at hi
    rw [Finset.mem_range]
    omega
  have hcard : (Finset.Ico a (a + k)).card = k := by
    rw [Nat.card_Ico]
    omega
  have h := sum_indicator_subset n x hx (Finset.Ico a (a + k)) hsub
    (fun i hi => by rw [Finset.mem_Ico] at hi; exact hone i hi.1 hi.2)
    (by rw [hcard]; exact hsum)
  intro i hi
  rw [h i hi, Finset.mem_Ico]

/-- Core argument: the shift-selector equality, the shift-length accounting
equality and the per-offset links force the assigned set of a day with `n`
blocks to be empty or a single contiguous run of length 2, 3 or 4. -/
theorem run_shape (n : Nat) (x s2 s3 s4 : Nat → Nat) (y : Nat)
    (hx : ∀ i ∈ Finset.range n, x i ≤ 1)
    (hs2 : ∀ i ∈ Finset.range (n-1), s2 i ≤ 1)
    (hs3 : ∀ i ∈ Finset.range (n-2), s3 i ≤ 1)
    (hs4 : ∀ i ∈ Finset.range (n-3), s4 i ≤ 1)
    (hy : y ≤ 1)
    (hsel : (∑ i in Finset.range (n-1), s2 i) + (∑ i in Finset.range (n-2), s3 i)
        + (∑ i in Finset.range (n-3), s4 i) = y)
    (hacc : ∑ i in Finset.range n, x i
        = 2 * (∑ i in Finset.range (n-1), s2 i) + 3 * (∑ i in Finset.range (n-2), s3 i)
          + 4 * (∑ i in Finset.range (n-3), s4 i))
    (hl2 : ∀ i ∈ Finset.range (n-1), s2 i ≤ x i ∧ s2 i ≤ x (i+1))
    (hl3 : ∀ i ∈ Finset.range (n-2), s3 i ≤ x i ∧ s3 i ≤ x (i+1) ∧ s3 i ≤ x (i+2))
    (hl4 : ∀ i ∈ Finset.range (n-3), s4 i ≤ x i ∧ s4 i ≤ x (i+1) ∧ s4 i ≤ x (i+2) ∧
        s4 i ≤ x (i+3)) :
    (∀ i ∈ Finset.range n, x i = 0) ∨
      ∃ a k, (k = 2 ∨ k = 3 ∨ k = 4) ∧ a + k ≤ n ∧
        (∀ i ∈ Finset.range n, (x i = 1 ↔ (a ≤ i ∧ i < a + k))) := by
  rcases Nat.le_one_iff_eq_zero_or_eq_one.mp hy with hy0 | hy1
  · left
    rw [hy0] at hsel
    have hx0 : ∑ i in Finset.range n, x i = 0 := by omega
    exact Finset.sum_eq_zero_iff.mp hx0
  · rw [hy1] at hsel
    have hcases :
        ((∑ i in Finset.range (n-1), s2 i) = 1 ∧ (∑ i in Finset.range (n-2), s3 i) = 0 ∧
          (∑ i in Finset.range (n-3), s4 i) = 0) ∨
        ((∑ i in Finset.range (n-2), s3 i) = 1 ∧ (∑ i in Finset.range (n-1), s2 i) = 0 ∧
          (∑ i in Finset.range (n-3), s4 i) = 0) ∨
        ((∑ i in Finset.range (n-3), s4 i) = 1 ∧ (∑ i in Finset.range (n-1), s2 i) = 0 ∧
          (∑ i in Finset.range (n-2), s3 i) = 0) := by omega
    rcases hcases with ⟨h2, h3, h4⟩ | ⟨h3, h2, h4⟩ | ⟨h4, h2, h3⟩
    · have hne : (∑ i in Finset.range (n-1), s2 i) ≠ 0 := by omega
      rcases Finset.exists_ne_zero_of_sum_ne_zero hne with ⟨a, ha, hsa⟩
      have hra : a < n - 1 := Finset.mem_range.mp ha
      have ha1 : s2 a = 1 := by
        have := hs2 a ha
        omega
      have hl := hl2 a ha
      have hxa : x a = 1 := by
        have hb := hx a (Finset.mem_range.mpr (by omega))
        omega
      have hxa1 : x (a+1) = 1 := by
        have hb := hx (a+1) (Finset.mem_range.mpr (by omega))
        omega
      right
      refine ⟨a, 2, Or.inl rfl, by omega, ?_⟩
      have hsum : ∑ i in Finset.range n, x i = 2 := by omega
      refine run_shape_core n 2 a x hx (by omega) ?_ hsum
      intro i hi1 hi2
      have hia : i = a ∨ i = a + 1 := by omega
      rcases hia with he | he <;> rw [he]
      · exact hxa
      · exact hxa1
    · have hne : (∑ i in Finset.range (n-2), s3 i) ≠ 0 := by omega
      rcases Finset.exists_ne_zero_of_sum_ne_zero hne with ⟨a, ha, hsa⟩
      have hra : a < n - 2 := Finset.mem_range.mp ha
      have ha1 : s3 a = 1 := by
        have := hs3 a ha
        omega
      have hl := hl3 a ha
      have hxa : x a = 1 := by
        have hb := hx a (Finset.mem_range.mpr (by omega))
        omega
      have hxa1 : x (a+1) = 1 := by
        have hb := hx (a+1) (Finset.mem_range.mpr (by omega))
        have h1 := hl.2.1
        omega
      have hxa2 : x (a+2) = 1 := by
        have hb := hx (a+2) (Finset.mem_range.mpr (by omega))
        have h1 := hl.2.2
        omega
      right
      refine ⟨a, 3, Or.inr (Or.inl rfl), by omega, ?_⟩
      have hsum : ∑ i in Finset.range n, x i = 3 := by omega
      refine run_shape_core n 3 a x hx (by omega) ?_ hsum
      intro i hi1 hi2
      have hia : i = a ∨ i = a + 1 ∨ i = a + 2 := by omega
      rcases hia with he | he | he <;> rw [he]
      · exact hxa
      · exact hxa1
      · exact hxa2
    · have hne : (∑ i in Finset.range (n-3), s4 i) ≠ 0 := by omega
      rcases Finset.exists_ne_zero_of_sum_ne_zero hne with ⟨a, ha, hsa⟩
      have hra : a < n - 3 := Finset.mem_range.mp ha
      have ha1 : s4 a = 1 := by
        have := hs4 a ha
        omega
      have hl := hl4 a ha
      have hxa : x a = 1 := by
        have hb := hx a (Finset.mem_range.mpr (by omega))
        omega
      have hxa1 : x (a+1) = 1 := by
        have hb := hx (a+1) (Finset.mem_range.mpr (by omega))
        have h1 := hl.2.1
        omega
      have hxa2 : x (a+2) = 1 := by
        have hb := hx (a+2) (Finset.mem_range.mpr (by omega))
        have h1 := hl.2.2.1
        omega
      have hxa3 : x (a+3) = 1 := by
        have hb := hx (a+3) (Finset.mem_range.mpr (by omega))
        have h1 := hl.2.2.2
        omega
      right
      refine ⟨a, 4, Or.inr (Or.inr rfl), by omega, ?_⟩
      have hsum : ∑ i in Finset.range n, x i = 4 := by omega
      refine run_shape_core n 4 a x hx (by omega) ?_ hsum
      intro i hi1 hi2
      have hia : i = a ∨ i = a + 1 ∨ i = a + 2 ∨ i = a + 3 := by omega
      rcases hia with he | he | he | he <;> rw [he]
      · exact hxa
      · exact hxa1
      · exact hxa2
      · exact hxa3

theorem range10_filter1 :
    ((List.range 10).filter fun i => decide ((i+1) ∈ List.range 10)) = List.range 9 := by
  decide

theorem range10_filter2 :
    ((List.range 10).filter fun i => decide ((i+2) ∈ List.range 10)) = List.range 8 := by
  decide

theorem range10_filter3 :
    ((List.range 10).filter fun i => decide ((i+3) ∈ List.range 10)) = List.range 7 := by
  decide

/-- C1: in every assignment satisfying the constraints of `build_model`
(shift-selector equality, shift-length accounting, per-offset links), the
set of block indices assigned to a person on a day is empty or one
contiguous run of length 2, 3 or 4 - never length 1, never length 5 or
more, never two disjoint runs. -/
theorem shift_shape_of_satisfies (df : List Row) (P : Params) (A : Assign)
    (hA : Satisfies df P A) (s : String) (hs : s ∈ stusOf df) (d : String)
    (hd : d ∈ dsOf df) :
    (∀ i ∈ blockIdxs df d, A.xv s d i = 0) ∨
      ∃ a k, (k = 2 ∨ k = 3 ∨ k = 4) ∧ a + k ≤ 10 ∧
        (∀ i ∈ blockIdxs df d, (A.xv s d i = 1 ↔ (a ≤ i ∧ i < a + k))) := by
  have hidx := blockIdxs_eq df d hd
  obtain ⟨hbin, _, _, _, _, _, hshift⟩ := hA
  obtain ⟨hsel, hacc, hlink⟩ := hshift s hs d hd
  obtain ⟨hy, hxb, hsb⟩ := hbin.1 s hs d hd
  unfold s2Sum s3Sum s4Sum at hsel
  unfold sumXday s2Sum s3Sum s4Sum at hacc
  simp only [hidx] at hsel hacc hlink hxb hsb
  rw [range10_filter1, range10_filter2, range10_filter3] at hsel hacc
  rw [list_sum_map_range, list_sum_map_range, list_sum_map_range] at hsel
  rw [list_sum_map_range, list_sum_map_range, list_sum_map_range,
    list_sum_map_range] at hacc
  have hx : ∀ i ∈ Finset.range 10, A.xv s d i ≤ 1 := fun i hi =>
    hxb i (List.mem_range.mpr (Finset.mem_range.mp hi))
  have hs2 : ∀ i ∈ Finset.range 9, A.s2v s d i ≤ 1 := by
    intro i hi
    have hi9 := Finset.mem_range.mp hi
    exact (hsb i (List.mem_range.mpr (by omega))).1 (List.mem_range.mpr (by omega))
  have hs3 : ∀ i ∈ Finset.range 8, A.s3v s d i ≤ 1 := by
    intro i hi
    have hi8 := Finset.mem_range.mp hi
    exact (hsb i (List.mem_range.mpr (by omega))).2.1 (List.mem_range.mpr (by omega))
  have hs4 : ∀ i ∈ Finset.range 7, A.s4v s d i ≤ 1 := by
    intro i hi
    have hi7 := Finset.mem_range.mp hi
    exact (hsb i (List.mem_range.mpr (by omega))).2.2 (List.mem_range.mpr (by omega))
  have hl2 : ∀ i ∈ Finset.range 9,
      A.s2v s d i ≤ A.xv s d i ∧ A.s2v s d i ≤ A.xv s d (i+1) := by
    intro i hi
    have hi9 := Finset.mem_range.mp hi
    exact (hlink i (List.mem_range.mpr (by omega))).1 (List.mem_range.mpr (by omega))
  have hl3 : ∀ i ∈ Finset.range 8,
      A.s3v s d i ≤ A.xv s d i ∧ A.s3v s d i ≤ A.xv s d (i+1) ∧
      A.s3v s d i ≤ A.xv s d (i+2) := by
    intro i hi
    have hi8 := Finset.mem_range.mp hi
    exact (hlink i (List.mem_range.mpr (by omega))).2.1 (List.mem_range.mpr (by omega))
  have hl4 : ∀ i ∈ Finset.range 7,
      A.s4v s d i ≤ A.xv s d i ∧ A.s4v s d i ≤ A.xv s d (i+1) ∧
      A.s4v s d i ≤ A.xv s d (i+2) ∧ A.s4v s d i ≤ A.xv s d (i+3) := by
    intro i hi
    have hi7 := Finset.mem_range.mp hi
    exact (hlink i (List.mem_range.mpr (by omega))).2.2 (List.mem_range.mpr (by omega))
  have hmain := run_shape 10 (A.xv s d) (A.s2v s d) (A.s3v s d) (A.s4v s d)
    (A.yv s d) hx hs2 hs3 hs4 hy hsel hacc hl2 hl3 hl4
  rw [hidx]
  rcases hmain with h | ⟨a, k, hk, hkn, hch⟩
  · left
    intro i hi
    exact h i (Finset.mem_range.mpr (List.mem_range.mp hi))
  · right
    exact ⟨a, k, hk, hkn, fun i hi =>
      hch i (Finset.mem_range.mpr (List.mem_range.mp hi))⟩

/-- C1 witness: the satisfying valuation `Wboth` of the `Wdf` model has the
claimed shape on Monday (a single run, blocks 0-1). -/
theorem shift_shape_of_satisfies_witness :
    (∀ i ∈ blockIdxs Wdf "Monday", Wboth.xv "a" "Monday" i = 0) ∨
      ∃ a k, (k = 2 ∨ k = 3 ∨ k = 4) ∧ a + k ≤ 10 ∧
        (∀ i ∈ blockIdxs Wdf "Monday", (Wboth.xv "a" "Monday" i = 1 ↔ (a ≤ i ∧ i < a + k))) :=
  shift_shape_of_satisfies Wdf P0 Wboth (by decide) "a" (by decide) "Monday" (by decide)

/-- C2 counterexample: a valuation satisfying every constraint built by
`build_model` (a feasible point the solver may legally return) in which
Monday block 0 simultaneously has an assigned person and a raised
uncovered flag, so "exactly one of assigned or flagged" does not follow
from feasibility alone. -/
theorem coverage_exactly_one_counterexample :
    Satisfies Wdf P0 Wboth ∧ (⟨"Monday", 0, 27000, 30600⟩ : Blk) ∈ blksOf Wdf ∧
    1 ≤ sumStu Wdf Wboth "Monday" 0 ∧ Wboth.uv "Monday" 0 = 1 := by decide

/-- C2 amended: every satisfying valuation has
`assignedCount + uncoveredFlag >= 1` at every block; and whenever a block is
both assigned and flagged, clearing the flag preserves every constraint and
strictly decreases the objective - hence no objective-minimizing solution
has both, and at optimality exactly one of the two holds per block. -/
theorem coverage_or_flag (df : List Row) (P : Params) (A : Assign)
    (hA : Satisfies df P A) :
    (∀ b ∈ blksOf df, 1 ≤ sumStu df A b.day b.idx + A.uv b.day b.idx) ∧
    (∀ b ∈ blksOf df, 1 ≤ sumStu df A b.day b.idx → A.uv b.day b.idx = 1 →
      Satisfies df P (clearU A b.day b.idx) ∧
      objective df P (clearU A b.day b.idx) < objective df P A) := by
  obtain ⟨hbin, hcov, hovl, hweek, havg, hbusy, hshift⟩ := hA
  refine ⟨hcov, ?_⟩
  intro b hb hassigned hu
  constructor
  · refine ⟨⟨hbin.1, ?hubin⟩, ?hcov1, hovl, hweek, havg, hbusy, hshift⟩
    · intro b1 hb1
      show (if b1.day = b.day ∧ b1.idx = b.idx then 0 else A.uv b1.day b1.idx) ≤ 1
      by_cases h : b1.day = b.day ∧ b1.idx = b.idx
      · rw [if_pos h]
        omega
      · rw [if_neg h]
        exact hbin.2 b1 hb1
    · intro b1 hb1
      show 1 ≤ sumStu df A b1.day b1.idx +
        (if b1.day = b.day ∧ b1.idx = b.idx then 0 else A.uv b1.day b1.idx)
      by_cases h : b1.day = b.day ∧ b1.idx = b.idx
      · rw [if_pos h, h.1, h.2]
        omega
      · rw [if_neg h]
        exact hcov b1 hb1
  · have hsu : sumU df (clearU A b.day b.idx) < sumU df A := by
      unfold sumU
      refine list_sum_lt_list_sum (blksOf df) _ _ ?hle b hb ?hlt
      · intro b1 hb1
        show (if b1.day = b.day ∧ b1.idx = b.idx then 0 else A.uv b1.day b1.idx) ≤
          A.uv b1.day b1.idx
        by_cases h : b1.day = b.day ∧ b1.idx = b.idx
        · rw [if_pos h]
          omega
        · rw [if_neg h]
      · show (if b.day = b.day ∧ b.idx = b.idx then 0 else A.uv b.day b.idx) <
          A.uv b.day b.idx
        rw [if_pos ⟨rfl, rfl⟩, hu]
        omega
    have h1 : totalAll df (clearU A b.day b.idx) = totalAll df A := rfl
    have h2 : sumY df (clearU A b.day b.idx) = sumY df A := rfl
    unfold objective bigWeight
    rw [h1, h2]
    have hb1000 : 1000 * sumU df (clearU A b.day b.idx) < 1000 * sumU df A := by
      omega
    omega

/-- C2 witness: applying the theorem to the satisfying valuation `Wboth` at
the doubly-covered Monday block 0 yields a satisfying valuation with the
flag cleared and a strictly smaller objective. -/
theorem coverage_or_flag_witness :
    Satisfies Wdf P0 (clearU Wboth "Monday" 0) ∧
    objective Wdf P0 (clearU Wboth "Monday" 0) < objective Wdf P0 Wboth :=
  (coverage_or_flag Wdf P0 Wboth (by decide)).2 ⟨"Monday", 0, 27000, 30600⟩
    (by decide) (by decide) (by decide)

/-! Objective dominance machinery for C6. -/

theorem totalAll_by_block (df : List Row) (A : Assign) :
    totalAll df A = ((blksOf df).map fun b => sumStu df A b.day b.idx).sum := by
  unfold totalAll totalX sumStu
  exact list_sum_comm (stusOf df) (blksOf df) fun s b => A.xv s b.day b.idx

theorem blksOf_length (df : List Row) : (blksOf df).length = 10 * (dsOf df).length := by
  unfold blksOf
  generalize dsOf df = ds
  induction ds with
  | nil => rfl
  | cons a l ih =>
      simp only [genblocks, List.length_append, List.length_map, ih, List.length_cons]
      have hlen : (genblocksDay windowStart windowEnd).length = 10 := by decide
      rw [hlen]
      ring

theorem dsOf_length_le (df : List Row) (hdays : ∀ r ∈ df, r.day ∈ weekdays) :
    (dsOf df).length ≤ 5 := by
  have hnd := dsOf_nodup df
  have hsub : ∀ d ∈ dsOf df, d ∈ weekdays := by
    intro d hd
    rcases (dsOf_mem df d).mp hd with ⟨r, hr, he⟩
    exact he ▸ hdays r hr
  have h1 : (dsOf df).toFinset.card = (dsOf df).length :=
    List.toFinset_card_of_nodup hnd
  have h2 : (dsOf df).toFinset ⊆ weekdays.toFinset := by
    intro d hd
    rw [List.mem_toFinset] at hd ⊢
    exact hsub d hd
  have h3 := Finset.card_le_card h2
  have h4 : weekdays.toFinset.card = 5 := by decide
  omega

theorem genblocks_sum (ds : List String) (st en : Nat) (f : String → Nat → Nat) :
    ((genblocks ds st en).map fun b => f b.day b.idx).sum =
      (ds.map fun d => ((genblocksDay st en).map fun t => f d t.1).sum).sum := by
  induction ds with
  | nil => rfl
  | cons a l ih =>
      simp only [genblocks, List.map_append, List.sum_append, ih, List.map_cons,
        List.sum_cons, List.map_map]
      rfl

theorem totalX_by_day (df : List Row) (A : Assign) (s : String) :
    totalX df A s = ((dsOf df).map fun d => sumXday df A s d).sum := by
  unfold totalX blksOf
  rw [genblocks_sum (dsOf df) windowStart windowEnd (fun d i => A.xv s d i)]
  refine congrArg List.sum (List.map_congr_left ?_)
  intro d hd
  unfold sumXday blockIdxs
  rw [dayBlocksOf_eq df d hd, List.map_map]
  rfl

theorem y_le_half_sumXday (df : List Row) (A : Assign) (s : String) (hs : s ∈ stusOf df)
    (hshift : ShiftConstraints df A) (d : String) (hd : d ∈ dsOf df) :
    2 * A.yv s d ≤ sumXday df A s d := by
  obtain ⟨hsel, hacc, _⟩ := hshift s hs d hd
  omega

theorem two_sumY_le_totalAll (df : List Row) (P : Params) (A : Assign)
    (hA : Satisfies df P A) : 2 * sumY df A ≤ totalAll df A := by
  have hshift := hA.2.2.2.2.2.2
  unfold sumY totalAll
  rw [list_sum_mul_left]
  refine List.sum_le_sum ?_
  intro s hs
  rw [totalX_by_day df A s, list_sum_mul_left]
  refine List.sum_le_sum ?_
  intro d hd
  exact y_le_half_sumXday df A s hs hshift d hd

/-- C6: the objective is `bigWeight * sum(u) + sum(x) + day_cost * sum(y)`
with `bigWeight = 1000`; for rosters over the five weekday labels under the
shipped parameters the whole staffing cost `sum(x) + day_cost * sum(y)` of
any feasible point stays strictly below `bigWeight`, so between two feasible
points the one with fewer uncovered blocks always has the smaller objective:
the optimizer prefers covering a block over any staffing saving. -/
theorem objective_bigweight_dominates (df : List Row) (A B : Assign)
    (hdays : ∀ r ∈ df, r.day ∈ weekdays)
    (hA : Satisfies df defaultParams A) (hB : Satisfies df defaultParams B)
    (hu : sumU df A < sumU df B) :
    totalAll df A + defaultParams.day_cost * sumY df A < bigWeight ∧
    objective df defaultParams A < objective df defaultParams B := by
  have hbound : totalAll df A + defaultParams.day_cost * sumY df A < bigWeight := by
    have hovl := hA.2.2.1
    have htb : totalAll df A ≤ 3 * (blksOf df).length := by
      rw [totalAll_by_block]
      exact list_sum_le_const (blksOf df) (fun b => sumStu df A b.day b.idx) 3
        fun b hb => hovl b hb
    have hlen : (blksOf df).length = 10 * (dsOf df).length := blksOf_length df
    have hds : (dsOf df).length ≤ 5 := dsOf_length_le df hdays
    have hy2 : 2 * sumY df A ≤ totalAll df A := two_sumY_le_totalAll df _ A hA
    have hdc : defaultParams.day_cost = 1 := rfl
    rw [hdc]
    show totalAll df A + 1 * sumY df A < 1000
    omega
  refine ⟨hbound, ?_⟩
  have hdc : defaultParams.day_cost = 1 := rfl
  unfold objective bigWeight at hbound ⊢
  rw [hdc] at hbound ⊢
  omega

/-- C6 witness: two feasible points of the `Wdf` model under the default
parameters, `B6` flagging one covered block more than `A6`; the staffing
cost stays below the big weight and the objective orders them by coverage. -/
theorem objective_bigweight_dominates_witness :
    totalAll Wdf A6 + defaultParams.day_cost * sumY Wdf A6 < bigWeight ∧
    objective Wdf defaultParams A6 < objective Wdf defaultParams B6 :=
  objective_bigweight_dominates Wdf A6 B6 (by decide) (by decide) (by decide)
    (by decide)

/-- C7: with a status whose name is not `Optimal` or `Feasible`,
`solve_and_extract` returns `None` for every possible value map - no
variable value is read and neither table is built, not even partially;
with an `Optimal`/`Feasible` status it builds and returns both tables. -/
theorem solve_status_guard (st : SolverStatus) (xval : String → String → Nat → Nat)
    (uval : String → Nat → Nat) (blks : List Blk) (stus : List String) :
    (statusName st ∉ (["Optimal", "Feasible"] : List String) →
      solve_and_extract st xval uval blks stus = none) ∧
    (statusName st ∈ (["Optimal", "Feasible"] : List String) →
      solve_and_extract st xval uval blks stus =
        some (solTable xval blks stus, uncoveredRows uval blks)) := by
  constructor
  · intro h
    unfold solve_and_extract
    rw [if_neg h]
  · intro h
    unfold solve_and_extract
    rw [if_pos h]

/-- C7 witness: on an `Infeasible` status the extractor returns `None`, even
for value maps that would fill both tables. -/
theorem solve_status_guard_witness :
    solve_and_extract .infeasible (fun _ _ _ => 1) (fun _ _ => 1) (blksOf Wdf)
      (stusOf Wdf) = none :=
  (solve_status_guard .infeasible (fun _ _ _ => 1) (fun _ _ => 1) (blksOf Wdf)
    (stusOf Wdf)).1 (by decide)

/-! Order instances for the extraction sort key (needed to state that the
output table is sorted). -/

instance rowLeTotal : IsTotal SolRowT rowLe := by
  constructor
  intro a b
  unfold rowLe
  rcases Nat.lt_trichotomy (daynum a.day) (daynum b.day) with h | h | h
  · exact Or.inl (Or.inl h)
  · rcases Nat.lt_trichotomy a.blockIdx b.blockIdx with h2 | h2 | h2
    · exact Or.inl (Or.inr ⟨h, Or.inl h2⟩)
    · rcases strLeTotal.total a.student b.student with h3 | h3
      · exact Or.inl (Or.inr ⟨h, Or.inr ⟨h2, h3⟩⟩)
      · exact Or.inr (Or.inr ⟨h.symm, Or.inr ⟨h2.symm, h3⟩⟩)
    · exact Or.inr (Or.inr ⟨h.symm, Or.inl h2⟩)
  · exact Or.inr (Or.inl h)

instance rowLeIsTrans : IsTrans SolRowT rowLe := by
  constructor
  intro a b c h1 h2
  unfold rowLe at h1 h2 ⊢
  rcases h1 with h1 | ⟨he1, h1⟩
  · rcases h2 with h2 | ⟨he2, h2⟩
    · exact Or.inl (lt_trans h1 h2)
    · exact Or.inl (he2 ▸ h1)
  · rcases h2 with h2 | ⟨he2, h2⟩
    · exact Or.inl (he1 ▸ h2)
    · refine Or.inr ⟨he1.trans he2, ?_⟩
      rcases h1 with h1 | ⟨hi1, h1⟩
      · rcases h2 with h2 | ⟨hi2, h2⟩
        · exact Or.inl (lt_trans h1 h2)
        · exact Or.inl (hi2 ▸ h1)
      · rcases h2 with h2 | ⟨hi2, h2⟩
        · exact Or.inl (hi1 ▸ h2)
        · exact Or.inr ⟨hi1.trans hi2, strLeIsTrans.trans _ _ _ h1 h2⟩

/-- C9: the emitted assigned-block table is sorted by day-of-week canonical
order (`daymap` sends Monday, ..., Friday to 1 < 2 < 3 < 4 < 5), then block
index, then student name, and it is a permutation of the constructed rows:
as a pure function of the solved values the result is identical on every
run over the same input. -/
theorem extraction_sort_order (xval : String → String → Nat → Nat)
    (blks : List Blk) (stus : List String) :
    List.Sorted rowLe (solTable xval blks stus) ∧
    (solTable xval blks stus).Perm (withTotals (rawRows xval blks stus)) ∧
    (daynum "Monday" < daynum "Tuesday" ∧ daynum "Tuesday" < daynum "Wednesday" ∧
      daynum "Wednesday" < daynum "Thursday" ∧ daynum "Thursday" < daynum "Friday") :=
  ⟨List.sorted_insertionSort rowLe _, List.perm_insertionSort rowLe _, by decide⟩

/-- C8 counterexample: an empty roster is not rejected and a model is
built: `loaddata` succeeds on the empty roster, `build_model` produces the
empty model (no days, no students, no blocks), and that model is satisfied
by the all-zero valuation, so the pipeline proceeds to a normal solve
instead of reporting a fault. -/
theorem empty_roster_builds_model :
    loaddata [] = .ok [] ∧ dsOf [] = [] ∧ stusOf [] = [] ∧ blksOf [] = [] ∧
    Satisfies [] defaultParams zeroAssign ∧
    objective [] defaultParams zeroAssign = 0 :=
  ⟨rfl, rfl, rfl, rfl, by decide, rfl⟩

/-- C8 amended: a malformed time value is reported at load time, before any
model is built; but an empty roster is not reported - the empty, trivially
satisfiable model is built anyway - and day labels are never validated:
every label of the roster becomes an active day, weekday or not. -/
theorem input_fault_handling :
    (∀ rows : List RawRow, ∀ r ∈ rows, parseTimeHMS r.csStr = none →
      ∃ e, loaddata rows = .error e) ∧
    (loaddata [] = .ok [] ∧ Satisfies [] defaultParams zeroAssign) ∧
    (∀ df : List Row, ∀ r ∈ df, r.day ∈ dsOf df) := by
  refine ⟨?hmal, ⟨rfl, by decide⟩, ?hlabel⟩
  · intro rows
    induction rows with
    | nil =>
        intro r hr
        cases hr
    | cons r0 rest ih =>
        intro r hr hbad
        rcases List.mem_cons.mp hr with he | hm
        · subst he
          refine ⟨"time data does not match the expected format", ?_⟩
          simp only [loaddata, hbad]
        · cases hcs : parseTimeHMS r0.csStr with
          | none =>
              refine ⟨"time data does not match the expected format", ?_⟩
              simp only [loaddata, hcs]
          | some a =>
              cases hce : parseTimeHMS r0.ceStr with
              | none =>
                  refine ⟨"time data does not match the expected format", ?_⟩
                  simp only [loaddata, hcs, hce]
              | some b =>
                  rcases ih r hm hbad with ⟨e, he2⟩
                  refine ⟨e, ?_⟩
                  simp only [loaddata, hcs, hce, he2]
  · intro df r hr
    exact (dsOf_mem df r.day).mpr ⟨r, hr, rfl⟩

/-- C8 witness: a roster row with the malformed start time `oops` makes
`loaddata` fail before any model is built. -/
theorem input_fault_handling_witness :
    ∃ e, loaddata [⟨"a", "Monday", "oops", "09:00:00"⟩] = .error e :=
  input_fault_handling.1 [⟨"a", "Monday", "oops", "09:00:00"⟩]
    ⟨"a", "Monday", "oops", "09:00:00"⟩ (List.mem_singleton.mpr rfl) rfl

end Scheduler
